import Mathlib

/-!
Verification of the core of the raftlog2 repository (a Raft replicated-log
library) against its natural-language specification.

The Rust sources are embedded shallowly:

* `src/cluster.rs` — majority / consensus arithmetic (`majority`,
  `max_of_agreed_value`, `median`, `ClusterConfig::consensus_value`,
  `ClusterConfig::full_consensus_value`);
* `src/log/mod.rs` — `LogPosition`, `LogEntry`, `LogSuffix` and its
  operations (`tail`, `positions`, `skip_to`, `merge`), `LogPrefix`;
* `src/log/history.rs` — `LogHistory` and its mutators;
* `src/node_state/follower/idle.rs` — the longest-common-prefix search and
  the handling of overlapping `AppendEntriesCall` suffixes;
* `src/node_state/follower/append.rs` — the `FollowerAppend` sub-state;
* `src/node_state/leader/follower.rs` — the per-follower progress update.

Machine integers (`u64`, `usize`) are modelled as `Nat`; the only
subtractions performed by the embedded code paths are guarded or saturating,
matching `Nat` subtraction.  Fallible Rust functions (`track_assert!`,
`unreachable!`, panicking indexing) are modelled with `Except ErrorKind` /
`Option`, a panic being an error value: the theorems below only speak about
the `Ok` results, as the specification's claims do.
-/

namespace Raftlog

/-- Node identifier: `NodeId` in `src/node.rs` is an opaque string-like id. -/
abbrev NodeId := String

/-- Translated from `majority` in `src/cluster.rs`: `1 + (n/2)`. -/
def majority (n : Nat) : Nat := 1 + n / 2

/-- Translated from `max_of_agreed_value` in `src/cluster.rs`: sort the
values ascending (`v.sort_unstable()`) and take `v[v.len() - majority]`.
The generic `T : Ord + Copy` is instantiated at `Nat`; the out-of-range
default 0 is only reachable for the empty list, on which the Rust code
debug-asserts. -/
def max_of_agreed_value (v : List Nat) : Nat :=
  (v.insertionSort (· ≤ ·)).getD (v.length - majority v.length) 0

/-- Translated from `median` in `src/cluster.rs` (which maps `f` over the
members and calls `max_of_agreed_value`; it is `unreachable!` on an empty
member set, so the theorems assume nonemptiness). -/
def median (members : List NodeId) (f : NodeId → Nat) : Nat :=
  max_of_agreed_value (members.map f)

/-- Translated from `ClusterState` in `src/cluster.rs`. -/
inductive ClusterState
  | Stable
  | CatchUp
  | Joint
deriving DecidableEq

/-- Translated from `ClusterConfig` in `src/cluster.rs`.  The ordered set
`ClusterMembers = BTreeSet<NodeId>` is modelled as a list (deterministic
iteration order is all the consensus arithmetic depends on). -/
structure ClusterConfig where
  new : List NodeId
  old : List NodeId
  state : ClusterState
deriving DecidableEq

/-- Translated from `ClusterConfig::consensus_value` in `src/cluster.rs`. -/
def ClusterConfig.consensus_value (c : ClusterConfig) (f : NodeId → Nat) : Nat :=
  match c.state with
  | .Stable => median c.new f
  | .CatchUp => median c.old f
  | .Joint => min (median c.new f) (median c.old f)

/-- Translated from `ClusterConfig::full_consensus_value` in
`src/cluster.rs` (`if self.state.is_stable() {...} else {...}`). -/
def ClusterConfig.full_consensus_value (c : ClusterConfig) (f : NodeId → Nat) : Nat :=
  if c.state = .Stable then median c.new f
  else min (median c.new f) (median c.old f)

/-- Specification-side notion: `x` is supported by a strict majority of the
multiset `v` of values, i.e. at least `majority |v|` elements are `≥ x`. -/
def supportedByMajority (v : List Nat) (x : Nat) : Prop :=
  majority v.length ≤ v.countP (fun y => decide (x ≤ y))

instance (v : List Nat) (x : Nat) : Decidable (supportedByMajority v x) :=
  inferInstanceAs (Decidable (majority v.length ≤ v.countP (fun y => decide (x ≤ y))))

/-- Specification-side notion for member sets: `x` is supported by a
majority of `members`, member `m` supporting every value `≤ f m`. -/
def agreedBy (members : List NodeId) (f : NodeId → Nat) (x : Nat) : Prop :=
  supportedByMajority (members.map f) x

/-- Valuation of the S6 scenario before D catches up. -/
def s6Tails : NodeId → Nat := fun n => if n = "D" ∨ n = "E" then 5 else 10

/-- Valuation of the S6 scenario after D's tail is raised to 10. -/
def s6TailsAfter : NodeId → Nat := fun n => if n = "E" then 5 else 10

/-- The S6 joint configuration `{new: {A,B,C}, old: {A,D,E}, state: Joint}`. -/
def s6Config : ClusterConfig := ⟨["A", "B", "C"], ["A", "D", "E"], .Joint⟩

/-- Translated from `ErrorKind` (used through `track_assert!` with kinds
`InconsistentState`, `InvalidInput` and `Other` in the embedded files). -/
inductive ErrorKind
  | InconsistentState
  | InvalidInput
  | Other
deriving DecidableEq

deriving instance DecidableEq for Except

/-- Translated from `LogPosition` in `src/log/mod.rs`; `Term` and
`LogIndex` are `u64` newtypes, modelled as `Nat`. -/
structure LogPosition where
  prev_term : Nat
  index : Nat
deriving DecidableEq

/-- Translated from `LogEntry` in `src/log/mod.rs`; command bytes are
modelled as `List Nat`. -/
inductive LogEntry
  | noop (term : Nat)
  | config (term : Nat) (config : ClusterConfig)
  | command (term : Nat) (command : List Nat)
deriving DecidableEq

/-- Translated from `LogEntry::term` in `src/log/mod.rs`. -/
def LogEntry.term : LogEntry → Nat
  | .noop t => t
  | .config t _ => t
  | .command t _ => t

/-- Translated from `LogSuffix` in `src/log/mod.rs`. -/
structure LogSuffix where
  entries : List LogEntry
  head : LogPosition
deriving DecidableEq

/-- Translated from `LogSuffix::tail` in `src/log/mod.rs`: position
`(last_entry.term, head.index + len)` when non-empty, else `head`. -/
def LogSuffix.tail (s : LogSuffix) : LogPosition :=
  match s.entries.getLast? with
  | some last_entry => ⟨last_entry.term, s.head.index + s.entries.length⟩
  | none => s.head

/-- Translated from `LogSuffix::positions` in `src/log/mod.rs` (the
`LogPositions` iterator yields the head followed by the after-entry
positions, `offset` running from 0 to `entries.len()`). -/
def LogSuffix.positions (s : LogSuffix) : List LogPosition :=
  s.head :: (s.entries.enum.map fun ie => ⟨ie.2.term, s.head.index + ie.1 + 1⟩)

/-- Translated from `LogSuffix::skip_to` in `src/log/mod.rs`. -/
def LogSuffix.skip_to (s : LogSuffix) (new_head : Nat) : Except ErrorKind LogSuffix :=
  if ¬ s.head.index ≤ new_head then .error .InvalidInput
  else if ¬ new_head ≤ s.tail.index then .error .InvalidInput
  else
    let count := new_head - s.head.index
    if count = 0 then .ok s
    else
      match (s.entries.take count).getLast? with
      | none => .error .Other
      | some e =>
        .ok { entries := s.entries.drop count,
              head := ⟨e.term, s.head.index + count⟩ }

/-- Translated from `LogSuffix::merge` in `src/log/mod.rs`.  The Rust
function `assert!`s (a) that `self.tail().index == next.head.index` — the
commented-out overlap admission is dead code — and (b) that the position
`next.positions().nth(entries_offset)` carries `prev_term` equal to the
term just before the overlap in `self`; a failed assertion (panic) is
modelled as `none`, as is out-of-range indexing. -/
def LogSuffix.merge (self next : LogSuffix) : Option LogSuffix :=
  if self.tail.index ≠ next.head.index then none
  else
    let entries_offset :=
      if self.head.index ≤ next.head.index then 0
      else self.head.index - next.head.index
    let offset := (next.head.index + entries_offset) - self.head.index
    let prev_term? : Option Nat :=
      if offset = 0 then some self.head.prev_term
      else if offset - 1 < self.entries.length then
        some ((self.entries.getD (offset - 1) (.noop 0)).term)
      else none
    match prev_term? with
    | none => none
    | some pt =>
      if (next.positions[entries_offset]?).map LogPosition.prev_term ≠ some pt then none
      else
        some { head := self.head,
               entries := self.entries.take offset ++ next.entries.drop entries_offset }

/-- Translated from `LogPrefix` in `src/log/mod.rs`. -/
structure LogPrefix where
  tail : LogPosition
  config : ClusterConfig
  snapshot : List Nat
deriving DecidableEq

/-- Translated from `HistoryRecord` in `src/log/history.rs`. -/
structure HistoryRecord where
  head : LogPosition
  config : ClusterConfig
deriving DecidableEq

/-- Dummy record used as the default of total projections whose Rust
counterparts panic on an empty deque (never reached under the
records-nonemptiness invariant). -/
def dummyRecord : HistoryRecord := ⟨⟨0, 0⟩, ⟨[], [], .Stable⟩⟩

/-- Translated from `LogHistory` in `src/log/history.rs`.  The `VecDeque`
of records is a list whose first element is the deque front (the oldest
record). -/
structure LogHistory where
  appended_tail : LogPosition
  committed_tail : LogPosition
  consumed_tail : LogPosition
  records : List HistoryRecord
deriving DecidableEq

/-- Translated from `LogHistory::new` in `src/log/history.rs`. -/
def LogHistory.new (config : ClusterConfig) : LogHistory :=
  { appended_tail := ⟨0, 0⟩
    committed_tail := ⟨0, 0⟩
    consumed_tail := ⟨0, 0⟩
    records := [⟨⟨0, 0⟩, config⟩] }

/-- Translated from `LogHistory::head` in `src/log/history.rs`
(`self.records[0].head`; indexing an empty deque panics, the default is
never reached under the record-nonemptiness invariant). -/
def LogHistory.headPos (h : LogHistory) : LogPosition :=
  (h.records.headD dummyRecord).head

/-- Translated from `LogHistory::get_record` in `src/log/history.rs`: scan
the records newest-to-oldest and return the first whose `head.index ≤
index`. -/
def LogHistory.get_record (h : LogHistory) (index : Nat) : Option HistoryRecord :=
  h.records.reverse.find? (fun r => decide (r.head.index ≤ index))

/-- Translated from the body of the `for` loop of
`LogHistory::record_appended` in `src/log/history.rs`, for the enumerated
entry `(i, e)`: maybe push a record for a config change, then maybe push a
record for a term change (with the `track_assert!` on strict term
increase); `last_record()` (`records.back().expect(..)`) on an empty deque
is a panic, modelled as an error. -/
def appendConfigStep (headIndex : Nat) (records : List HistoryRecord) (last : HistoryRecord)
    (ie : Nat × LogEntry) : List HistoryRecord :=
  match ie.2 with
  | .config _ cfg =>
    if last.config ≠ cfg then
      records ++ [HistoryRecord.mk ⟨ie.2.term, headIndex + ie.1 + 1⟩ cfg]
    else records
  | _ => records

/-- Second half of the loop body: the term-boundary check
(`if tail.prev_term != self.last_record().head.prev_term`), with the
`track_assert!` on strict term increase, run on the records as left by the
config half. -/
def appendTermStep (headIndex : Nat) (records1 : List HistoryRecord) (ie : Nat × LogEntry) :
    Except ErrorKind (List HistoryRecord) :=
  match records1.getLast? with
  | none => .error .Other
  | some last1 =>
    if ie.2.term ≠ last1.head.prev_term then
      if last1.head.prev_term < ie.2.term then
        .ok (records1 ++ [HistoryRecord.mk ⟨ie.2.term, headIndex + ie.1 + 1⟩ last1.config])
      else .error .Other
    else .ok records1

def appendEntryStep (headIndex : Nat) (records : List HistoryRecord) (ie : Nat × LogEntry) :
    Except ErrorKind (List HistoryRecord) :=
  match records.getLast? with
  | none => .error .Other
  | some last => appendTermStep headIndex (appendConfigStep headIndex records last ie) ie

/-- The `for (i, e) in suffix.entries.iter().enumerate().skip(entries_offset)`
loop of `LogHistory::record_appended`, as a recursion over the remaining
enumerated entries. -/
def appendLoop (headIndex : Nat) (records : List HistoryRecord) :
    List (Nat × LogEntry) → Except ErrorKind (List HistoryRecord)
  | [] => .ok records
  | ie :: rest =>
    match appendEntryStep headIndex records ie with
    | .error e => .error e
    | .ok records1 => appendLoop headIndex records1 rest

/-- Translated from `LogHistory::record_appended` in `src/log/history.rs`:
compute `entries_offset` (0 when the tails line up, the overlap when a
snapshot moved `appended_tail` past `suffix.head`, `unreachable!` — an
error here — when `appended_tail < suffix.head`), run the loop, and set
`appended_tail := suffix.tail()` unconditionally. -/
def LogHistory.record_appended (h : LogHistory) (suffix : LogSuffix) :
    Except ErrorKind LogHistory :=
  if suffix.head.index ≤ h.appended_tail.index then
    let entries_offset := h.appended_tail.index - suffix.head.index
    match appendLoop suffix.head.index h.records (suffix.entries.enum.drop entries_offset) with
    | .error e => .error e
    | .ok records1 =>
      .ok { h with records := records1, appended_tail := suffix.tail }
  else .error .Other

/-- Translated from `LogHistory::record_committed` in `src/log/history.rs`. -/
def LogHistory.record_committed (h : LogHistory) (new_tail_index : Nat) :
    Except ErrorKind LogHistory :=
  if ¬ h.committed_tail.index ≤ new_tail_index then .error .Other
  else if ¬ new_tail_index ≤ h.appended_tail.index then .error .Other
  else
    match h.get_record new_tail_index with
    | none => .error .Other
    | some r => .ok { h with committed_tail := ⟨r.head.prev_term, new_tail_index⟩ }

/-- Translated from `LogHistory::record_consumed` in `src/log/history.rs`. -/
def LogHistory.record_consumed (h : LogHistory) (new_tail_index : Nat) :
    Except ErrorKind LogHistory :=
  if ¬ h.consumed_tail.index ≤ new_tail_index then .error .Other
  else if ¬ new_tail_index ≤ h.committed_tail.index then .error .Other
  else
    match h.get_record new_tail_index with
    | none => .error .Other
    | some r => .ok { h with consumed_tail := ⟨r.head.prev_term, new_tail_index⟩ }

/-- Translated from `LogHistory::record_rollback` in `src/log/history.rs`:
bounds asserts, the `prev_term` consistency assert, then set
`appended_tail := new_tail` and truncate the records at the first one past
`new_tail.index`. -/
def LogHistory.record_rollback (h : LogHistory) (new_tail : LogPosition) :
    Except ErrorKind LogHistory :=
  if ¬ new_tail.index ≤ h.appended_tail.index then .error .Other
  else if ¬ h.committed_tail.index ≤ new_tail.index then .error .Other
  else if (h.get_record new_tail.index).map (fun r => r.head.prev_term) ≠
      some new_tail.prev_term then .error .InconsistentState
  else
    .ok { h with
          appended_tail := new_tail
          records := h.records.takeWhile (fun r => decide (r.head.index ≤ new_tail.index)) }

/-- Translated from `LogHistory::record_snapshot_installed` in
`src/log/history.rs`: assert `head().index ≤ new_head.index` (`head()` on
an empty deque panics), pop the records covered by the snapshot, push the
fresh record at the front, and snap `appended_tail` / `committed_tail`
forward to `new_head` where they lag behind (`consumed_tail` is not
touched). -/
def LogHistory.record_snapshot_installed (h : LogHistory) (new_head : LogPosition)
    (config : ClusterConfig) : Except ErrorKind LogHistory :=
  match h.records with
  | [] => .error .Other
  | r0 :: _ =>
    if ¬ r0.head.index ≤ new_head.index then .error .InconsistentState
    else
      .ok { appended_tail :=
              if h.appended_tail.index < new_head.index then new_head else h.appended_tail
            committed_tail :=
              if h.committed_tail.index < new_head.index then new_head else h.committed_tail
            consumed_tail := h.consumed_tail
            records := ⟨new_head, config⟩ ::
              h.records.dropWhile (fun r => decide (r.head.index ≤ new_head.index)) }

/-- Translated from `LogHistory::record_snapshot_loaded` in
`src/log/history.rs`. -/
def LogHistory.record_snapshot_loaded (h : LogHistory) (snapshot : LogPrefix) :
    Except ErrorKind LogHistory :=
  if h.consumed_tail.index < snapshot.tail.index then
    if ¬ snapshot.tail.index ≤ h.committed_tail.index then .error .InconsistentState
    else .ok { h with consumed_tail := snapshot.tail }
  else .ok h

/-- One `LogHistory` mutator invocation, for stating properties of
operation sequences. -/
inductive HistoryOp
  | appended (s : LogSuffix)
  | committed (i : Nat)
  | consumed (i : Nat)
  | rollback (p : LogPosition)
  | snapshotInstalled (p : LogPosition) (c : ClusterConfig)
  | snapshotLoaded (pfx : LogPrefix)

/-- Dispatch of one `HistoryOp` to the corresponding `LogHistory` mutator. -/
def LogHistory.applyOp (h : LogHistory) : HistoryOp → Except ErrorKind LogHistory
  | .appended s => h.record_appended s
  | .committed i => h.record_committed i
  | .consumed i => h.record_consumed i
  | .rollback p => h.record_rollback p
  | .snapshotInstalled p c => h.record_snapshot_installed p c
  | .snapshotLoaded pfx => h.record_snapshot_loaded pfx

/-- Run a sequence of mutators, stopping at the first error. -/
def LogHistory.applyOps (h : LogHistory) : List HistoryOp → Except ErrorKind LogHistory
  | [] => .ok h
  | op :: rest =>
    match h.applyOp op with
    | .error e => .error e
    | .ok h1 => h1.applyOps rest

/-- Translated from `AppendEntriesCall` in the message taxonomy (§6 of the
spec; `src/message.rs` itself is not part of the provided sources): the
fields the follower-side handlers read are the suffix and the leader's
committed log tail. -/
structure AppendEntriesCall where
  suffix : LogSuffix
  committed_log_tail : Nat
deriving DecidableEq

/-- Translated from `AppendEntriesReply` in the message taxonomy (§6):
the replying node's log tail, plus the busy flag. -/
structure AppendEntriesReply where
  seq_no : Nat
  log_tail : LogPosition
  busy : Bool
deriving DecidableEq

/-- Modelled from the spec: the reply RPCs `reply_append_entries` and
`reply_busy` of `Common` (not among the provided sources) emit an
`AppendEntriesReply{log_tail, busy}`; `reply_append_entries pos` carries
the given position, `reply_busy` the busy signal. -/
inductive FollowerReply
  | appendEntries (log_tail : LogPosition)
  | busySignal
deriving DecidableEq

/-- Incoming messages, per the message taxonomy (§6). -/
inductive Message
  | requestVoteCall
  | requestVoteReply
  | appendEntriesCall (m : AppendEntriesCall)
  | appendEntriesReply (r : AppendEntriesReply)
  | installSnapshotCast (pfx : LogPrefix)
deriving DecidableEq

/-- Translated from the `for LogPosition { prev_term, index } in
suffix.positions()` loop of `FollowerIdle::longest_common_prefix` in
`src/node_state/follower/idle.rs`; `fallback` is `suffix.tail()`, returned
when the loop exhausts the positions. -/
def lcpLoop (h : LogHistory) (fallback : LogPosition) :
    List LogPosition → Except ErrorKind (Bool × LogPosition)
  | [] => .ok (true, fallback)
  | p :: rest =>
    match h.get_record p.index with
    | none => .error .InconsistentState
    | some record =>
      if p.prev_term ≠ record.head.prev_term then
        match h.get_record (p.index - 1) with
        | none => .error .InconsistentState
        | some r2 => .ok (false, ⟨r2.head.prev_term, p.index - 1⟩)
      else if p.index = h.appended_tail.index then .ok (true, h.appended_tail)
      else lcpLoop h fallback rest

/-- Translated from `FollowerIdle::longest_common_prefix` in
`src/node_state/follower/idle.rs` (the `common.log()` the function reads
is the local `LogHistory`). -/
def longest_common_prefix (h : LogHistory) (suffix : LogSuffix) :
    Except ErrorKind (Bool × LogPosition) :=
  lcpLoop h suffix.tail suffix.positions

/-- Next state resulting from the Idle-state handling: stay in Idle, or
move to the Append sub-state carrying the adjusted message. -/
inductive FollowerTransition
  | stayIdle
  | toAppend (m : AppendEntriesCall)
deriving DecidableEq

/-- Translated from `FollowerIdle::handle_non_disjoint_entries` in
`src/node_state/follower/idle.rs`: run the longest-common-prefix search;
on divergence roll the local history back to the join point
(`common.handle_log_rollbacked`, which records the rollback in the local
`LogHistory` — modelled from the spec, §4.3.3, as `record_rollback`) and
reply with the new tail, staying Idle; on success skip the suffix to the
join point and hand over to the Append sub-state. -/
def handle_non_disjoint_entries (h : LogHistory) (m : AppendEntriesCall) :
    Except ErrorKind (LogHistory × Option FollowerReply × FollowerTransition) :=
  match longest_common_prefix h m.suffix with
  | .error e => .error e
  | .ok (false, lcp) =>
    match h.record_rollback lcp with
    | .error e => .error e
    | .ok h1 => .ok (h1, some (.appendEntries lcp), .stayIdle)
  | .ok (true, lcp) =>
    match m.suffix.skip_to lcp.index with
    | .error e => .error e
    | .ok suffix1 => .ok (h, none, .toAppend ⟨suffix1, m.committed_log_tail⟩)

/-- Translated from the fields of `FollowerAppend` in
`src/node_state/follower/append.rs`; `future : Option IO::SaveLog` becomes
the optional suffix passed to `save_log_suffix` (`none` = the storage
write is skipped). -/
structure FollowerAppendState where
  future : Option LogSuffix
  new_log_tail : LogPosition
  message : AppendEntriesCall
deriving DecidableEq

/-- Translated from `FollowerAppend::new` in
`src/node_state/follower/append.rs`; `localTail` is `common.log().tail()`
and `localCommitted` is `common.log_committed_tail().index`. -/
def FollowerAppend.new (localTail : LogPosition) (localCommitted : Nat)
    (message : AppendEntriesCall) : FollowerAppendState :=
  let new_log_tail :=
    if message.suffix.tail.index < localTail.index then localTail
    else message.suffix.tail
  let message1 :=
    if message.suffix.tail.index < message.committed_log_tail then
      { message with committed_log_tail := message.suffix.tail.index }
    else message
  let message2 :=
    if message1.committed_log_tail < localCommitted then
      { message1 with committed_log_tail := localCommitted }
    else message1
  let future :=
    if new_log_tail.index = localTail.index then none
    else some message2.suffix
  ⟨future, new_log_tail, message2⟩

/-- Translated from `FollowerAppend::handle_message` in
`src/node_state/follower/append.rs`: only an `AppendEntriesCall` is
answered (with `reply_busy`); everything else is dropped, and the state
never changes (`Ok(None)`). -/
def FollowerAppend.handle_message (message : Message) : Option FollowerReply :=
  match message with
  | .appendEntriesCall _ => some .busySignal
  | _ => none

/-- Translated from the `Follower` record of
`src/node_state/leader/follower.rs` (the leader's per-follower state). -/
structure FollowerInfo where
  obsolete_seq_no : Nat
  log_tail : Nat
  last_seq_no : Nat
  synced : Bool
deriving DecidableEq

/-- Translated from `FollowersManager::update_follower_state` in
`src/node_state/leader/follower.rs`, restricted to the single follower
record the function mutates; returns the new record and the `updated`
flag. -/
def update_follower_state (leaderLog : LogHistory) (f : FollowerInfo)
    (reply : AppendEntriesReply) : FollowerInfo × Bool :=
  let f := if f.last_seq_no < reply.seq_no then { f with last_seq_no := reply.seq_no } else f
  if reply.busy then (f, false)
  else if f.synced then
    let updated := f.log_tail < reply.log_tail.index
    if updated then ({ f with log_tail := reply.log_tail.index }, true)
    else if reply.log_tail.index = 0 ∧ f.log_tail ≠ 0 then
      ({ f with synced := false }, false)
    else (f, false)
  else
    let leader_term := (leaderLog.get_record reply.log_tail.index).map
      (fun r => r.head.prev_term)
    if leader_term = some reply.log_tail.prev_term then
      ({ f with synced := true, log_tail := reply.log_tail.index }, true)
    else
      ({ f with synced := false, log_tail := reply.log_tail.index - 1 }, false)

/-- Structural invariant of the record sequence (§3): heads strictly
increasing in index and non-decreasing in `prev_term`. -/
def recordsChain (rs : List HistoryRecord) : Prop :=
  rs.Chain' (fun a b => a.head.index < b.head.index ∧ a.head.prev_term ≤ b.head.prev_term)

/-- Executable check of `recordsChain`, for evaluating concrete states. -/
def recordsChainB : List HistoryRecord → Bool
  | [] => true
  | [_] => true
  | a :: b :: rest =>
    (decide (a.head.index < b.head.index) && decide (a.head.prev_term ≤ b.head.prev_term)) &&
      recordsChainB (b :: rest)

instance (rs : List HistoryRecord) : Decidable (recordsChain rs) :=
  decidable_of_iff (recordsChainB rs = true) (by
    induction rs with
    | nil => simp [recordsChainB, recordsChain]
    | cons a tail ih =>
      cases tail with
      | nil => simp [recordsChainB, recordsChain]
      | cons b rest =>
        unfold recordsChain at *
        rw [recordsChainB, List.chain'_cons, ← ih]
        simp only [Bool.and_eq_true, decide_eq_true_eq])

/-- The last (newest) record, with the never-used dummy of `headPos`. -/
def LogHistory.lastRecordD (h : LogHistory) : HistoryRecord :=
  h.records.getLastD dummyRecord

/-- The `LogHistory` invariants exactly as §3 of the specification lists
them: records non-empty, record heads strictly increasing in index and
non-decreasing in `prev_term`, and
`head().index ≤ consumed_tail.index ≤ committed_tail.index ≤ appended_tail.index`. -/
def SpecInvariant (h : LogHistory) : Prop :=
  h.records ≠ [] ∧ recordsChain h.records ∧
  h.headPos.index ≤ h.consumed_tail.index ∧
  h.consumed_tail.index ≤ h.committed_tail.index ∧
  h.committed_tail.index ≤ h.appended_tail.index

instance (h : LogHistory) : Decidable (SpecInvariant h) :=
  inferInstanceAs (Decidable (h.records ≠ [] ∧ recordsChain h.records ∧
    h.headPos.index ≤ h.consumed_tail.index ∧
    h.consumed_tail.index ≤ h.committed_tail.index ∧
    h.committed_tail.index ≤ h.appended_tail.index))

/-- The §3 invariants strengthened by the auxiliary bound
`last_record().head.index ≤ appended_tail.index`, which the mutators rely
on and maintain (without it the listed invariants are not inductive). -/
def StrongInvariant (h : LogHistory) : Prop :=
  SpecInvariant h ∧ h.lastRecordD.head.index ≤ h.appended_tail.index

instance (h : LogHistory) : Decidable (StrongInvariant h) :=
  inferInstanceAs (Decidable (SpecInvariant h ∧
    h.lastRecordD.head.index ≤ h.appended_tail.index))

/-- What `record_snapshot_installed` actually guarantees: everything in
`StrongInvariant` except `head().index ≤ consumed_tail.index`, which it
replaces by `head().index ≤ committed_tail.index` (the consumed tail is
left behind the new head until the snapshot is loaded). -/
def SnapshotInvariant (h : LogHistory) : Prop :=
  h.records ≠ [] ∧ recordsChain h.records ∧
  h.headPos.index ≤ h.committed_tail.index ∧
  h.consumed_tail.index ≤ h.committed_tail.index ∧
  h.committed_tail.index ≤ h.appended_tail.index ∧
  h.lastRecordD.head.index ≤ h.appended_tail.index

instance (h : LogHistory) : Decidable (SnapshotInvariant h) :=
  inferInstanceAs (Decidable (h.records ≠ [] ∧ recordsChain h.records ∧
    h.headPos.index ≤ h.committed_tail.index ∧
    h.consumed_tail.index ≤ h.committed_tail.index ∧
    h.committed_tail.index ≤ h.appended_tail.index ∧
    h.lastRecordD.head.index ≤ h.appended_tail.index))

/-- Protocol-side hypothesis for `record_appended`: the terms of the
entries the loop will process are non-decreasing, starting no lower than
the newest record's `prev_term` (true of any real log, whose entry terms
never decrease). -/
def entryTermsOk (h : LogHistory) (s : LogSuffix) : Prop :=
  List.Chain (· ≤ ·) h.lastRecordD.head.prev_term
    ((s.entries.drop (h.appended_tail.index - s.head.index)).map LogEntry.term)

/-- Executable check of a `≤`-chain of naturals from a starting value. -/
def chainLeB : Nat → List Nat → Bool
  | _, [] => true
  | x, y :: rest => decide (x ≤ y) && chainLeB y rest

instance (h : LogHistory) (s : LogSuffix) : Decidable (entryTermsOk h s) :=
  decidable_of_iff (chainLeB h.lastRecordD.head.prev_term
    ((s.entries.drop (h.appended_tail.index - s.head.index)).map LogEntry.term) = true) (by
    unfold entryTermsOk
    generalize h.lastRecordD.head.prev_term = x
    generalize (s.entries.drop (h.appended_tail.index - s.head.index)).map LogEntry.term = l
    induction l generalizing x with
    | nil => simp [chainLeB]
    | cons y rest ih =>
      rw [chainLeB, List.chain_cons, ← ih]
      simp only [Bool.and_eq_true, decide_eq_true_eq])

/-- A one-node stable configuration, used in concrete witnesses. -/
def cfgA : ClusterConfig := ⟨["A"], [], .Stable⟩

/-- The fresh history of a node of the `cfgA` cluster. -/
def histA : LogHistory := LogHistory.new cfgA

/-- The history obtained from `histA` by installing a snapshot whose head
is `(prev_term 1, index 10)`. -/
def histA_snap10 : LogHistory :=
  ⟨⟨1, 10⟩, ⟨1, 10⟩, ⟨0, 0⟩, [⟨⟨1, 10⟩, cfgA⟩]⟩

/-- A suffix holding entries of term 1 at indices 1 and 2. -/
def mergeSelfCex : LogSuffix := ⟨[.noop 1, .noop 1], ⟨0, 0⟩⟩

/-- A suffix overlapping `mergeSelfCex`: it starts at position
`(prev_term 1, index 1)` — inside `mergeSelfCex`'s range — and agrees with
it on the term of the shared entry at index 2. -/
def mergeNextCex : LogSuffix := ⟨[.noop 1], ⟨1, 1⟩⟩

/-- An empty snapshot at the sentinel position. -/
def emptyLogPrefix : LogPrefix := ⟨⟨0, 0⟩, cfgA, []⟩

/-- The S5 local history: entries with terms `[1, 1, 2]` at indices 1..=3
(what `record_appended` of that suffix produces on the fresh history). -/
def s5Local : LogHistory :=
  ⟨⟨2, 3⟩, ⟨0, 0⟩, ⟨0, 0⟩, [⟨⟨0, 0⟩, cfgA⟩, ⟨⟨1, 1⟩, cfgA⟩, ⟨⟨2, 3⟩, cfgA⟩]⟩

/-- The S5 leader message: suffix head `(prev_term 1, index 2)` with two
entries of term 3. -/
def s5Msg : AppendEntriesCall := ⟨⟨[.noop 3, .noop 3], ⟨1, 2⟩⟩, 0⟩

/-- The S5 local history after rolling back to `(prev_term 1, index 2)`. -/
def s5After : LogHistory :=
  ⟨⟨1, 2⟩, ⟨0, 0⟩, ⟨0, 0⟩, [⟨⟨0, 0⟩, cfgA⟩, ⟨⟨1, 1⟩, cfgA⟩]⟩

theorem sorted_countP_ge (x : Nat) :
    ∀ s : List Nat, List.Sorted (· ≤ ·) s → ∀ k, k < s.length → x = s.getD k 0 →
      s.length - k ≤ s.countP (fun y => decide (x ≤ y)) := by
  intro s
  induction s with
  | nil => intro _ k hk _; simp at hk
  | cons a t ih =>
    intro hs k hk hx
    match k with
    | 0 =>
      have hxa : x = a := by simpa using hx
      have hall : ∀ b ∈ a :: t, (fun y => decide (x ≤ y)) b = true := by
        intro b hb
        rcases List.mem_cons.1 hb with rfl | hb
        · simp [hxa]
        · have := (List.sorted_cons.1 hs).1 b hb
          simp only [decide_eq_true_eq]
          omega
      have hlen := List.countP_eq_length.2 hall
      simp [hlen]
    | k + 1 =>
      have ht := (List.sorted_cons.1 hs).2
      have hx' : x = t.getD k 0 := by simpa using hx
      have hk' : k < t.length := by simpa using hk
      have hrec := ih ht k hk' hx'
      rw [List.countP_cons]
      simp only [List.length_cons]
      omega

theorem sorted_countP_le (x : Nat) :
    ∀ s : List Nat, List.Sorted (· ≤ ·) s → ∀ k, k < s.length → s.getD k 0 < x →
      s.countP (fun y => decide (x ≤ y)) + k + 1 ≤ s.length := by
  intro s
  induction s with
  | nil => intro _ k hk _; simp at hk
  | cons a t ih =>
    intro hs k hk hkx
    match k with
    | 0 =>
      have hax : a < x := by simpa using hkx
      have hna : (fun y => decide (x ≤ y)) a = false := by
        simp only [decide_eq_false_iff_not]
        omega
      have hle := List.countP_le_length (fun y => decide (x ≤ y)) (l := t)
      rw [List.countP_cons]
      simp [hna]
      omega
    | k + 1 =>
      have hsc := List.sorted_cons.1 hs
      have hk' : k < t.length := by simpa using hk
      have hkx' : t.getD k 0 < x := by simpa using hkx
      have hmem : t.getD k 0 ∈ t := by
        rw [List.getD_eq_getElem t 0 hk']
        exact List.getElem_mem hk'
      have hax : a ≤ t.getD k 0 := hsc.1 _ hmem
      have hna : (fun y => decide (x ≤ y)) a = false := by
        simp only [decide_eq_false_iff_not]
        omega
      have hrec := ih hsc.2 k hk' hkx'
      rw [List.countP_cons]
      simp [hna]
      omega

theorem max_of_agreed_value_isGreatest (v : List Nat) (hv : v ≠ []) :
    IsGreatest {x | supportedByMajority v x} (max_of_agreed_value v) := by
  have hperm := List.perm_insertionSort (· ≤ ·) v
  have hsorted := List.sorted_insertionSort (· ≤ ·) v
  have hlen : (v.insertionSort (· ≤ ·)).length = v.length := hperm.length_eq
  have hn : 1 ≤ v.length := List.length_pos.2 hv
  have hm : majority v.length ≤ v.length := by unfold majority; omega
  have hk : v.length - majority v.length < v.length := by unfold majority; omega
  have hk' : v.length - majority v.length < (v.insertionSort (· ≤ ·)).length := by omega
  constructor
  · show supportedByMajority v (max_of_agreed_value v)
    unfold supportedByMajority
    have hcnt := hperm.countP_eq (fun y => decide (max_of_agreed_value v ≤ y))
    have hge := sorted_countP_ge (max_of_agreed_value v) (v.insertionSort (· ≤ ·)) hsorted
      (v.length - majority v.length) hk' rfl
    rw [hlen, hcnt] at hge
    omega
  · intro x hx
    by_contra hgt
    push_neg at hgt
    have hcnt := hperm.countP_eq (fun y => decide (x ≤ y))
    have hbound := sorted_countP_le x (v.insertionSort (· ≤ ·)) hsorted
      (v.length - majority v.length) hk' hgt
    rw [hlen, hcnt] at hbound
    simp only [Set.mem_setOf_eq, supportedByMajority] at hx
    omega

/-- C1: for every non-empty multiset `V` of values, `max_of_agreed_value V`
is the greatest `x` such that at least `majority |V|` elements `v ∈ V`
satisfy `x ≤ v`, where `majority n = 1 + n / 2`; equivalently it is the
element at position `|V| - majority |V|` of `V` sorted ascending. -/
theorem max_of_agreed_value_correct (v : List Nat) (hv : v ≠ []) :
    IsGreatest {x | supportedByMajority v x} (max_of_agreed_value v) ∧
    max_of_agreed_value v =
      (v.insertionSort (· ≤ ·)).getD (v.length - majority v.length) 0 ∧
    (∀ n, majority n = 1 + n / 2) ∧
    majority 1 = 1 ∧ majority 2 = 2 ∧ majority 3 = 2 ∧ majority 4 = 3 ∧
    majority 5 = 3 ∧ majority 6 = 4 ∧ majority 7 = 4 ∧ majority 8 = 5 ∧
    majority 9 = 5 := by
  exact ⟨max_of_agreed_value_isGreatest v hv, rfl, fun n => rfl, by decide⟩

/-- Witness for C1 at the concrete multiset `[0, 5, 5]` (the S1 scenario
with one straggler): the result is 5 and it is the greatest
majority-supported value. -/
theorem max_of_agreed_value_correct_witness :
    ([0, 5, 5] : List Nat) ≠ [] ∧
    max_of_agreed_value [0, 5, 5] = 5 ∧
    IsGreatest {x | supportedByMajority [0, 5, 5] x} (max_of_agreed_value [0, 5, 5]) :=
  ⟨by decide, by decide, (max_of_agreed_value_correct [0, 5, 5] (by decide)).1⟩

/-- C2: `consensus_value f` is the majority-supported maximum over `new` in
`Stable`, over `old` in `CatchUp`, and the minimum of the two
majority-supported maxima in `Joint`; `full_consensus_value` agrees with it
outside `CatchUp` and takes the double-majority minimum also in `CatchUp`.
The S6 scenario evaluates to 5 before D catches up and to 10 after. -/
theorem consensus_value_correct (c : ClusterConfig) (f : NodeId → Nat)
    (hnew : c.new ≠ []) (hold : c.old ≠ []) :
    (c.state = .Stable → IsGreatest {x | agreedBy c.new f x} (c.consensus_value f)) ∧
    (c.state = .CatchUp → IsGreatest {x | agreedBy c.old f x} (c.consensus_value f)) ∧
    (c.state = .Joint → ∃ a b, IsGreatest {x | agreedBy c.new f x} a ∧
      IsGreatest {x | agreedBy c.old f x} b ∧ c.consensus_value f = min a b) ∧
    (c.state ≠ .CatchUp → c.full_consensus_value f = c.consensus_value f) ∧
    (c.state = .CatchUp → ∃ a b, IsGreatest {x | agreedBy c.new f x} a ∧
      IsGreatest {x | agreedBy c.old f x} b ∧ c.full_consensus_value f = min a b) ∧
    s6Config.consensus_value s6Tails = 5 ∧
    s6Config.consensus_value s6TailsAfter = 10 := by
  have hmapnew : c.new.map f ≠ [] := by
    intro h
    exact hnew (List.map_eq_nil_iff.1 h)
  have hmapold : c.old.map f ≠ [] := by
    intro h
    exact hold (List.map_eq_nil_iff.1 h)
  have hgnew : IsGreatest {x | agreedBy c.new f x} (median c.new f) :=
    max_of_agreed_value_isGreatest (c.new.map f) hmapnew
  have hgold : IsGreatest {x | agreedBy c.old f x} (median c.old f) :=
    max_of_agreed_value_isGreatest (c.old.map f) hmapold
  refine ⟨?_, ?_, ?_, ?_, ?_, by decide, by decide⟩
  · intro hst
    simpa [ClusterConfig.consensus_value, hst] using hgnew
  · intro hst
    simpa [ClusterConfig.consensus_value, hst] using hgold
  · intro hst
    exact ⟨median c.new f, median c.old f, hgnew, hgold,
      by simp [ClusterConfig.consensus_value, hst]⟩
  · intro hst
    cases hc : c.state with
    | Stable => simp [ClusterConfig.consensus_value, ClusterConfig.full_consensus_value, hc]
    | CatchUp => exact absurd hc hst
    | Joint => simp [ClusterConfig.consensus_value, ClusterConfig.full_consensus_value, hc]
  · intro hst
    exact ⟨median c.new f, median c.old f, hgnew, hgold,
      by simp [ClusterConfig.full_consensus_value, hst]⟩

/-- Witness for C2 at the S6 configuration and valuation. -/
theorem consensus_value_correct_witness :
    s6Config.new ≠ [] ∧ s6Config.old ≠ [] ∧
    (s6Config.state = .Joint → ∃ a b,
      IsGreatest {x | agreedBy s6Config.new s6Tails x} a ∧
      IsGreatest {x | agreedBy s6Config.old s6Tails x} b ∧
      s6Config.consensus_value s6Tails = min a b) ∧
    s6Config.consensus_value s6Tails = 5 :=
  ⟨by decide, by decide,
    (consensus_value_correct s6Config s6Tails (by decide) (by decide)).2.2.1,
    (consensus_value_correct s6Config s6Tails (by decide) (by decide)).2.2.2.2.2.1⟩

theorem logSuffix_head_le_tail (s : LogSuffix) : s.head.index ≤ s.tail.index := by
  unfold LogSuffix.tail
  match h : s.entries.getLast? with
  | some e => simp
  | none => simp

theorem logSuffix_tail_of_ne (s : LogSuffix) (h : s.entries ≠ []) :
    s.tail = ⟨(s.entries.getLast h).term, s.head.index + s.entries.length⟩ := by
  unfold LogSuffix.tail
  rw [List.getLast?_eq_getLast s.entries h]

theorem getLastD_mem {α : Type} (l : List α) (d : α) (h : l ≠ []) : l.getLastD d ∈ l := by
  rw [List.getLastD_eq_getLast?, List.getLast?_eq_getLast l h]
  simp only [Option.getD_some]
  exact List.getLast_mem h

theorem record_committed_strongInv (h : LogHistory) (i : Nat) (h' : LogHistory)
    (hI : StrongInvariant h) (hok : h.record_committed i = .ok h') :
    StrongInvariant h' := by
  obtain ⟨⟨hne, hchain, hhc, hcc, hca⟩, hl⟩ := hI
  unfold LogHistory.record_committed at hok
  split at hok
  · simp at hok
  split at hok
  · simp at hok
  split at hok
  · simp at hok
  next hc1 hc2 r hr =>
    simp only [Except.ok.injEq] at hok
    subst hok
    refine ⟨⟨hne, hchain, hhc, ?_, ?_⟩, hl⟩
    · show h.consumed_tail.index ≤ i
      omega
    · show i ≤ h.appended_tail.index
      omega

theorem record_consumed_strongInv (h : LogHistory) (i : Nat) (h' : LogHistory)
    (hI : StrongInvariant h) (hok : h.record_consumed i = .ok h') :
    StrongInvariant h' := by
  obtain ⟨⟨hne, hchain, hhc, hcc, hca⟩, hl⟩ := hI
  unfold LogHistory.record_consumed at hok
  split at hok
  · simp at hok
  split at hok
  · simp at hok
  split at hok
  · simp at hok
  next hc1 hc2 r hr =>
    simp only [Except.ok.injEq] at hok
    subst hok
    refine ⟨⟨hne, hchain, ?_, ?_, hca⟩, hl⟩
    · show h.headPos.index ≤ i
      omega
    · show i ≤ h.committed_tail.index
      omega

theorem record_snapshot_loaded_strongInv (h : LogHistory) (pfx : LogPrefix) (h' : LogHistory)
    (hI : StrongInvariant h) (hok : h.record_snapshot_loaded pfx = .ok h') :
    StrongInvariant h' := by
  obtain ⟨⟨hne, hchain, hhc, hcc, hca⟩, hl⟩ := hI
  unfold LogHistory.record_snapshot_loaded at hok
  split at hok
  · split at hok
    · simp at hok
    next hlt hle =>
      simp only [Except.ok.injEq] at hok
      subst hok
      refine ⟨⟨hne, hchain, ?_, ?_, hca⟩, hl⟩
      · show h.headPos.index ≤ pfx.tail.index
        omega
      · show pfx.tail.index ≤ h.committed_tail.index
        omega
  · simp only [Except.ok.injEq] at hok
    subst hok
    exact ⟨⟨hne, hchain, hhc, hcc, hca⟩, hl⟩

theorem record_rollback_strongInv (h : LogHistory) (p : LogPosition) (h' : LogHistory)
    (hI : StrongInvariant h) (hok : h.record_rollback p = .ok h') :
    StrongInvariant h' := by
  obtain ⟨⟨hne, hchain, hhc, hcc, hca⟩, hl⟩ := hI
  unfold LogHistory.record_rollback at hok
  split at hok
  · simp at hok
  split at hok
  · simp at hok
  split at hok
  · simp at hok
  next hc1 hc2 hc3 =>
    simp only [Except.ok.injEq] at hok
    subst hok
    obtain ⟨r0, rest, hrec⟩ := List.exists_cons_of_ne_nil hne
    have hr0 : r0.head.index ≤ p.index := by
      have hhead : h.headPos = r0.head := by
        unfold LogHistory.headPos
        rw [hrec]
        rfl
      have : h.headPos.index ≤ p.index := by omega
      rwa [hhead] at this
    have htw : h.records.takeWhile (fun r => decide (r.head.index ≤ p.index)) =
        r0 :: rest.takeWhile (fun r => decide (r.head.index ≤ p.index)) := by
      rw [hrec]
      exact List.takeWhile_cons_of_pos (by simpa using hr0)
    have hne' : h.records.takeWhile (fun r => decide (r.head.index ≤ p.index)) ≠ [] := by
      rw [htw]
      simp
    refine ⟨⟨hne', ?_, ?_, hcc, ?_⟩, ?_⟩
    · exact hchain.prefix (List.takeWhile_prefix _)
    · show ((h.records.takeWhile (fun r => decide (r.head.index ≤ p.index))).headD
          dummyRecord).head.index ≤ h.consumed_tail.index
      rw [htw]
      have hhead : h.headPos = r0.head := by
        unfold LogHistory.headPos
        rw [hrec]
        rfl
      simp only [List.headD_cons]
      rw [← hhead]
      exact hhc
    · show h.committed_tail.index ≤ p.index
      omega
    · show ((h.records.takeWhile (fun r => decide (r.head.index ≤ p.index))).getLastD
          dummyRecord).head.index ≤ p.index
      have hmem := getLastD_mem
        (h.records.takeWhile (fun r => decide (r.head.index ≤ p.index)))
        dummyRecord hne'
      have := List.mem_takeWhile_imp hmem
      simpa using this

theorem record_snapshot_installed_inv (h : LogHistory) (nh : LogPosition)
    (cfg : ClusterConfig) (h' : LogHistory) (hI : StrongInvariant h)
    (hterm : ∀ r ∈ h.records, nh.index < r.head.index → nh.prev_term ≤ r.head.prev_term)
    (hok : h.record_snapshot_installed nh cfg = .ok h') :
    SnapshotInvariant h' := by
  obtain ⟨⟨hne, hchain, hhc, hcc, hca⟩, hl⟩ := hI
  unfold LogHistory.record_snapshot_installed at hok
  split at hok
  · simp at hok
  next r0 rest0 hrec =>
    split at hok
    · simp at hok
    next hr0 =>
      simp only [Except.ok.injEq] at hok
      subst hok
      set p := fun r : HistoryRecord => decide (r.head.index ≤ nh.index) with hp
      set rest := h.records.dropWhile p with hrest
      have hrest_suffix : rest <:+ h.records := List.dropWhile_suffix p
      refine ⟨by simp, ?_, ?_, ?_, ?_, ?_⟩
      · show recordsChain (⟨nh, cfg⟩ :: rest)
        unfold recordsChain
        rw [List.chain'_cons']
        constructor
        · intro y hy
          have hymem : y ∈ rest := by
            cases hr : rest.head? with
            | none => rw [hr] at hy; simp at hy
            | some z =>
              rw [hr] at hy
              simp only [Option.mem_def, Option.some.injEq] at hy
              subst hy
              exact List.mem_of_mem_head? hr
          have hpy : p y = false := by
            have := List.head?_dropWhile_not p h.records
            cases hr : rest.head? with
            | none => rw [hr] at hy; simp at hy
            | some z =>
              rw [hr] at hy
              simp only [Option.mem_def, Option.some.injEq] at hy
              subst hy
              rw [← hrest] at this
              rw [hr] at this
              exact this
          have hylt : nh.index < y.head.index := by
            simp only [hp, decide_eq_false_iff_not] at hpy
            omega
          exact ⟨hylt, hterm y (hrest_suffix.sublist.mem hymem) hylt⟩
        · exact hchain.suffix hrest_suffix
      · show nh.index ≤
          (if h.committed_tail.index < nh.index then nh else h.committed_tail).index
        split <;> omega
      · show h.consumed_tail.index ≤
          (if h.committed_tail.index < nh.index then nh else h.committed_tail).index
        split <;> omega
      · show (if h.committed_tail.index < nh.index then nh else h.committed_tail).index ≤
          (if h.appended_tail.index < nh.index then nh else h.appended_tail).index
        split <;> split <;> omega
      · show ((⟨nh, cfg⟩ :: rest).getLastD dummyRecord).head.index ≤
          (if h.appended_tail.index < nh.index then nh else h.appended_tail).index
        rw [List.getLastD_cons]
        cases hrestE : rest with
        | nil =>
          show nh.index ≤ _
          split <;> omega
        | cons y ys =>
          have hrne : rest ≠ [] := by rw [hrestE]; simp
          obtain ⟨pre, hpre⟩ := hrest_suffix
          have hlast : rest.getLastD (⟨nh, cfg⟩ : HistoryRecord) =
              h.records.getLastD dummyRecord := by
            rw [List.getLastD_eq_getLast?, List.getLastD_eq_getLast?, ← hpre,
              List.getLast?_append, List.getLast?_eq_getLast rest hrne]
            simp
          rw [hrestE] at hlast
          rw [hlast]
          have : h.lastRecordD.head.index ≤ h.appended_tail.index := hl
          unfold LogHistory.lastRecordD at this
          split <;> omega

theorem enumFrom_drop {α : Type} :
    ∀ (l : List α) (n k : Nat), (l.enumFrom n).drop k = (l.drop k).enumFrom (n + k) := by
  intro l
  induction l with
  | nil => intro n k; simp
  | cons a t ih =>
    intro n k
    cases k with
    | zero => simp
    | succ j =>
      rw [List.enumFrom_cons, List.drop_succ_cons, List.drop_succ_cons, ih (n + 1) j]
      congr 1
      omega

theorem ne_nil_of_getLast?_some {α : Type} {l : List α} {a : α}
    (h : l.getLast? = some a) : l ≠ [] := by
  intro hnil
  subst hnil
  simp at h

theorem head?_append_singleton {α : Type} {l : List α} {x : α} (h : l ≠ []) :
    (l ++ [x]).head? = l.head? := by
  obtain ⟨a, t, rfl⟩ := List.exists_cons_of_ne_nil h
  rfl

theorem recordsChain_push (records : List HistoryRecord) (last x : HistoryRecord)
    (hlast : records.getLast? = some last) (hchain : recordsChain records)
    (hidx : last.head.index < x.head.index) (hterm : last.head.prev_term ≤ x.head.prev_term) :
    recordsChain (records ++ [x]) := by
  unfold recordsChain at *
  rw [List.chain'_append]
  refine ⟨hchain, List.chain'_singleton x, ?_⟩
  intro a ha b hb
  rw [hlast] at ha
  simp only [Option.mem_def, Option.some.injEq] at ha
  simp only [List.head?_cons, Option.mem_def, Option.some.injEq] at hb
  subst ha
  subst hb
  exact ⟨hidx, hterm⟩

theorem appendConfigStep_ok (headIndex i0 : Nat) (e : LogEntry)
    (records : List HistoryRecord) (last : HistoryRecord)
    (hlast : records.getLast? = some last) (hchain : recordsChain records)
    (hbound : last.head.index ≤ headIndex + i0)
    (hte : last.head.prev_term ≤ e.term) :
    ∃ last1,
      (appendConfigStep headIndex records last (i0, e)).getLast? = some last1 ∧
      (appendConfigStep headIndex records last (i0, e)).head? = records.head? ∧
      recordsChain (appendConfigStep headIndex records last (i0, e)) ∧
      last1.head.prev_term ≤ e.term ∧
      (last1.head.index < headIndex + i0 + 1 ∨
        (last1.head.index = headIndex + i0 + 1 ∧ last1.head.prev_term = e.term)) := by
  have hne : records ≠ [] := ne_nil_of_getLast?_some hlast
  cases e with
  | config t cfg =>
    by_cases hcfg : last.config ≠ cfg
    · have hACS : appendConfigStep headIndex records last (i0, LogEntry.config t cfg) =
          records ++ [HistoryRecord.mk ⟨t, headIndex + i0 + 1⟩ cfg] := by
        simp [appendConfigStep, hcfg, LogEntry.term]
      rw [hACS]
      refine ⟨⟨⟨t, headIndex + i0 + 1⟩, cfg⟩, List.getLast?_concat records,
        head?_append_singleton hne, ?_, le_refl _, Or.inr ⟨rfl, rfl⟩⟩
      exact recordsChain_push records last _ hlast hchain (by simp; omega)
        (by simpa [LogEntry.term] using hte)
    · have hACS : appendConfigStep headIndex records last (i0, LogEntry.config t cfg) =
          records := by
        simp [appendConfigStep, hcfg]
      rw [hACS]
      exact ⟨last, hlast, rfl, hchain, hte, Or.inl (by omega)⟩
  | noop t => exact ⟨last, hlast, rfl, hchain, hte, Or.inl (by omega)⟩
  | command t cmd => exact ⟨last, hlast, rfl, hchain, hte, Or.inl (by omega)⟩

theorem appendTermStep_ok (headIndex i0 : Nat) (e : LogEntry)
    (records1 : List HistoryRecord) (last1 : HistoryRecord)
    (hlast : records1.getLast? = some last1) (hchain : recordsChain records1)
    (hbound : last1.head.index < headIndex + i0 + 1 ∨
      (last1.head.index = headIndex + i0 + 1 ∧ last1.head.prev_term = e.term))
    (hte : last1.head.prev_term ≤ e.term) :
    ∃ records2 last2,
      appendTermStep headIndex records1 (i0, e) = .ok records2 ∧
      records2.getLast? = some last2 ∧
      records2.head? = records1.head? ∧
      recordsChain records2 ∧
      last2.head.prev_term = e.term ∧
      last2.head.index ≤ headIndex + i0 + 1 := by
  have hne : records1 ≠ [] := ne_nil_of_getLast?_some hlast
  unfold appendTermStep
  rw [hlast]
  dsimp only
  by_cases heq : e.term = last1.head.prev_term
  · rw [if_neg (not_not_intro heq)]
    refine ⟨records1, last1, rfl, hlast, rfl, hchain, heq.symm, ?_⟩
    rcases hbound with hb | ⟨hb, _⟩ <;> omega
  · have hlt : last1.head.prev_term < e.term := lt_of_le_of_ne hte (fun h => heq h.symm)
    have hidx : last1.head.index < headIndex + i0 + 1 := by
      rcases hbound with hb | ⟨_, hb⟩
      · exact hb
      · exact absurd hb.symm heq
    rw [if_pos heq, if_pos hlt]
    refine ⟨records1 ++ [HistoryRecord.mk ⟨e.term, headIndex + i0 + 1⟩ last1.config],
      ⟨⟨e.term, headIndex + i0 + 1⟩, last1.config⟩, rfl, List.getLast?_concat records1,
      head?_append_singleton hne, ?_, rfl, le_refl _⟩
    exact recordsChain_push records1 last1 _ hlast hchain (by simp; omega) (by simpa using hte)

theorem appendEntryStep_ok (headIndex i0 : Nat) (e : LogEntry)
    (records : List HistoryRecord) (last : HistoryRecord)
    (hlast : records.getLast? = some last) (hchain : recordsChain records)
    (hbound : last.head.index ≤ headIndex + i0)
    (hte : last.head.prev_term ≤ e.term) :
    ∃ records2 last2,
      appendEntryStep headIndex records (i0, e) = .ok records2 ∧
      records2.getLast? = some last2 ∧
      records2.head? = records.head? ∧
      recordsChain records2 ∧
      last2.head.prev_term = e.term ∧
      last2.head.index ≤ headIndex + i0 + 1 := by
  obtain ⟨last1, hlast1, hhead1, hchain1, hte1, hbound1⟩ :=
    appendConfigStep_ok headIndex i0 e records last hlast hchain hbound hte
  obtain ⟨records2, last2, hstep, hlast2, hhead2, hchain2, hte2, hbound2⟩ :=
    appendTermStep_ok headIndex i0 e (appendConfigStep headIndex records last (i0, e))
      last1 hlast1 hchain1 hbound1 hte1
  refine ⟨records2, last2, ?_, hlast2, hhead2.trans hhead1, hchain2, hte2, hbound2⟩
  unfold appendEntryStep
  rw [hlast]
  exact hstep

theorem logSuffix_tail_index (s : LogSuffix) :
    s.tail.index = s.head.index + s.entries.length := by
  unfold LogSuffix.tail
  match hE : s.entries.getLast? with
  | some e => simp
  | none =>
    have : s.entries = [] := by
      cases hc : s.entries with
      | nil => rfl
      | cons a t => rw [hc] at hE; simp [List.getLast?_concat] at hE
    simp [this]

theorem appendLoop_ok (headIndex : Nat) :
    ∀ (es : List LogEntry) (i0 : Nat) (records : List HistoryRecord) (last : HistoryRecord),
      records.getLast? = some last →
      recordsChain records →
      last.head.index ≤ headIndex + i0 →
      List.Chain (· ≤ ·) last.head.prev_term (es.map LogEntry.term) →
      ∃ records1,
        appendLoop headIndex records (es.enumFrom i0) = .ok records1 ∧
        records1.head? = records.head? ∧
        recordsChain records1 ∧
        (records1.getLastD dummyRecord).head.index ≤ headIndex + i0 + es.length := by
  intro es
  induction es with
  | nil =>
    intro i0 records last hlast hchain hbound hterms
    refine ⟨records, rfl, rfl, hchain, ?_⟩
    rw [List.getLastD_eq_getLast?, hlast]
    simp only [Option.getD_some, List.length_nil]
    omega
  | cons e es' ih =>
    intro i0 records last hlast hchain hbound hterms
    rw [List.map_cons, List.chain_cons] at hterms
    obtain ⟨hte, hterms'⟩ := hterms
    obtain ⟨records2, last2, hstep, hlast2, hhead2, hchain2, hprev2, hbound2⟩ :=
      appendEntryStep_ok headIndex i0 e records last hlast hchain hbound hte
    obtain ⟨records1, hloop, hhead1, hchain1, hb1⟩ :=
      ih (i0 + 1) records2 last2 hlast2 hchain2 (by omega) (by rw [hprev2]; exact hterms')
    refine ⟨records1, ?_, hhead1.trans hhead2, hchain1, ?_⟩
    · rw [List.enumFrom_cons]
      show appendLoop headIndex records ((i0, e) :: es'.enumFrom (i0 + 1)) = .ok records1
      unfold appendLoop
      rw [hstep]
      exact hloop
    · simp only [List.length_cons]
      omega

theorem record_appended_strongInv (h : LogHistory) (s : LogSuffix) (h' : LogHistory)
    (hI : StrongInvariant h)
    (hreach : h.appended_tail.index ≤ s.tail.index)
    (hterms : entryTermsOk h s)
    (hok : h.record_appended s = .ok h') :
    StrongInvariant h' := by
  obtain ⟨⟨hne, hchain, hhc, hcc, hca⟩, hl⟩ := hI
  unfold LogHistory.record_appended at hok
  split at hok
  case isFalse => simp at hok
  case isTrue hhead =>
    dsimp only at hok
    have hdrop : s.entries.enum.drop (h.appended_tail.index - s.head.index) =
        (s.entries.drop (h.appended_tail.index - s.head.index)).enumFrom
          (h.appended_tail.index - s.head.index) := by
      have := enumFrom_drop s.entries 0 (h.appended_tail.index - s.head.index)
      simpa [List.enum] using this
    have hlastsome : h.records.getLast? = some h.lastRecordD := by
      unfold LogHistory.lastRecordD
      rw [List.getLastD_eq_getLast?, List.getLast?_eq_getLast _ hne]
      simp
    have hbound0 : h.lastRecordD.head.index ≤
        s.head.index + (h.appended_tail.index - s.head.index) := by omega
    obtain ⟨records1, hloop, hhead1, hchain1, hb1⟩ :=
      appendLoop_ok s.head.index (s.entries.drop (h.appended_tail.index - s.head.index))
        (h.appended_tail.index - s.head.index) h.records h.lastRecordD
        hlastsome hchain hbound0 hterms
    rw [hdrop, hloop] at hok
    simp only [Except.ok.injEq] at hok
    subst hok
    have hne1 : records1 ≠ [] := by
      intro hE
      rw [hE] at hhead1
      obtain ⟨r0, rest, hr⟩ := List.exists_cons_of_ne_nil hne
      rw [hr] at hhead1
      simp at hhead1
    have htidx := logSuffix_tail_index s
    refine ⟨⟨hne1, hchain1, ?_, hcc, ?_⟩, ?_⟩
    · show (records1.headD dummyRecord).head.index ≤ h.consumed_tail.index
      have : records1.headD dummyRecord = h.records.headD dummyRecord := by
        rw [List.headD_eq_head?, List.headD_eq_head?, hhead1]
      rw [this]
      exact hhc
    · show h.committed_tail.index ≤ s.tail.index
      omega
    · show (records1.getLastD dummyRecord).head.index ≤ s.tail.index
      rw [List.length_drop] at hb1
      omega

/-- C3 (amended): starting from a state satisfying the §3 invariants plus
the auxiliary bound `last_record().head.index ≤ appended_tail.index`, the
mutators `record_committed`, `record_consumed`, `record_rollback` and
`record_snapshot_loaded` preserve all of them whenever they return `Ok`;
`record_appended` preserves them provided the suffix reaches at least the
current appended tail and its processed entry terms are non-decreasing
from the newest record's `prev_term`; `record_snapshot_installed` — whose
argument's `prev_term` must not exceed those of the surviving records —
preserves all of them except `head().index ≤ consumed_tail.index`, which
it replaces by `head().index ≤ committed_tail.index`. -/
theorem logHistory_invariants_preserved (h : LogHistory) (hI : StrongInvariant h) :
    (∀ i h', h.record_committed i = .ok h' → StrongInvariant h') ∧
    (∀ i h', h.record_consumed i = .ok h' → StrongInvariant h') ∧
    (∀ p h', h.record_rollback p = .ok h' → StrongInvariant h') ∧
    (∀ pfx h', h.record_snapshot_loaded pfx = .ok h' → StrongInvariant h') ∧
    (∀ s h', h.appended_tail.index ≤ s.tail.index → entryTermsOk h s →
      h.record_appended s = .ok h' → StrongInvariant h') ∧
    (∀ nh cfg h',
      (∀ r ∈ h.records, nh.index < r.head.index → nh.prev_term ≤ r.head.prev_term) →
      h.record_snapshot_installed nh cfg = .ok h' → SnapshotInvariant h') :=
  ⟨fun i h' => record_committed_strongInv h i h' hI,
   fun i h' => record_consumed_strongInv h i h' hI,
   fun p h' => record_rollback_strongInv h p h' hI,
   fun pfx h' => record_snapshot_loaded_strongInv h pfx h' hI,
   fun s h' hreach hterms => record_appended_strongInv h s h' hI hreach hterms,
   fun nh cfg h' hterm => record_snapshot_installed_inv h nh cfg h' hI hterm⟩

/-- Witness for C3: the fresh one-node history satisfies the strengthened
invariant, `record_committed 0` succeeds on it, and the result satisfies
the invariant again. -/
theorem logHistory_invariants_preserved_witness :
    StrongInvariant histA ∧ histA.record_committed 0 = .ok histA ∧ StrongInvariant histA :=
  ⟨by decide, by decide,
    (logHistory_invariants_preserved histA (by decide)).1 0 histA (by decide)⟩

/-- Counterexample to C3 as stated: on the fresh history (which satisfies
every §3 invariant), `record_snapshot_installed` at position
`(prev_term 1, index 10)` returns `Ok`, yet the resulting state violates
`head().index ≤ consumed_tail.index` (the head jumps to 10 while the
consumed tail stays at 0). -/
theorem record_snapshot_installed_breaks_invariant :
    SpecInvariant histA ∧
    histA.record_snapshot_installed ⟨1, 10⟩ cfgA = .ok histA_snap10 ∧
    ¬ SpecInvariant histA_snap10 := by decide

theorem applyOp_tails_monotone (h : LogHistory) (op : HistoryOp) (h' : LogHistory)
    (hok : h.applyOp op = .ok h') :
    h.committed_tail.index ≤ h'.committed_tail.index ∧
    h.consumed_tail.index ≤ h'.consumed_tail.index := by
  cases op with
  | appended s =>
    have hok2 : h.record_appended s = .ok h' := hok
    unfold LogHistory.record_appended at hok2
    split at hok2
    · dsimp only at hok2
      split at hok2
      · simp at hok2
      · simp only [Except.ok.injEq] at hok2
        subst hok2
        exact ⟨le_refl _, le_refl _⟩
    · simp at hok2
  | committed i =>
    have hok2 : h.record_committed i = .ok h' := hok
    unfold LogHistory.record_committed at hok2
    split at hok2
    · simp at hok2
    split at hok2
    · simp at hok2
    split at hok2
    · simp at hok2
    next hc1 hc2 r hr =>
      simp only [Except.ok.injEq] at hok2
      subst hok2
      refine ⟨?_, le_refl _⟩
      show h.committed_tail.index ≤ i
      omega
  | consumed i =>
    have hok2 : h.record_consumed i = .ok h' := hok
    unfold LogHistory.record_consumed at hok2
    split at hok2
    · simp at hok2
    split at hok2
    · simp at hok2
    split at hok2
    · simp at hok2
    next hc1 hc2 r hr =>
      simp only [Except.ok.injEq] at hok2
      subst hok2
      refine ⟨le_refl _, ?_⟩
      show h.consumed_tail.index ≤ i
      omega
  | rollback p =>
    have hok2 : h.record_rollback p = .ok h' := hok
    unfold LogHistory.record_rollback at hok2
    split at hok2
    · simp at hok2
    split at hok2
    · simp at hok2
    split at hok2
    · simp at hok2
    simp only [Except.ok.injEq] at hok2
    subst hok2
    exact ⟨le_refl _, le_refl _⟩
  | snapshotInstalled nh cfg =>
    have hok2 : h.record_snapshot_installed nh cfg = .ok h' := hok
    unfold LogHistory.record_snapshot_installed at hok2
    split at hok2
    · simp at hok2
    split at hok2
    · simp at hok2
    simp only [Except.ok.injEq] at hok2
    subst hok2
    constructor
    · show h.committed_tail.index ≤
        (if h.committed_tail.index < nh.index then nh else h.committed_tail).index
      split <;> omega
    · exact le_refl _
  | snapshotLoaded pfx =>
    have hok2 : h.record_snapshot_loaded pfx = .ok h' := hok
    unfold LogHistory.record_snapshot_loaded at hok2
    split at hok2
    · split at hok2
      · simp at hok2
      next hlt hle =>
        simp only [Except.ok.injEq] at hok2
        subst hok2
        refine ⟨le_refl _, ?_⟩
        show h.consumed_tail.index ≤ pfx.tail.index
        omega
    · simp only [Except.ok.injEq] at hok2
      subst hok2
      exact ⟨le_refl _, le_refl _⟩

/-- C4: over any sequence of mutator calls that all return `Ok`, the
committed tail index and the consumed tail index never decrease: the four
operations that touch them (`record_committed`, `record_consumed`,
`record_snapshot_installed`, `record_snapshot_loaded`) only move them
forward, and `record_appended` / `record_rollback` leave them unchanged. -/
theorem logHistory_tails_monotone (ops : List HistoryOp) :
    ∀ (h h' : LogHistory), h.applyOps ops = .ok h' →
      h.committed_tail.index ≤ h'.committed_tail.index ∧
      h.consumed_tail.index ≤ h'.consumed_tail.index := by
  induction ops with
  | nil =>
    intro h h' hok
    unfold LogHistory.applyOps at hok
    simp only [Except.ok.injEq] at hok
    subst hok
    exact ⟨le_refl _, le_refl _⟩
  | cons op rest ih =>
    intro h h' hok
    unfold LogHistory.applyOps at hok
    split at hok
    · simp at hok
    next h1 hstep =>
      have h1mono := applyOp_tails_monotone h op h1 hstep
      have hrest := ih h1 h' hok
      exact ⟨h1mono.1.trans hrest.1, h1mono.2.trans hrest.2⟩

/-- Witness for C4: a concrete four-operation `Ok` run on the fresh
one-node history (commit then consume then rollback), whose committed and
consumed tails indeed do not decrease. -/
theorem logHistory_tails_monotone_witness :
    histA.applyOps [.committed 0, .consumed 0, .rollback ⟨0, 0⟩] = .ok histA ∧
    histA.committed_tail.index ≤ histA.committed_tail.index ∧
    histA.consumed_tail.index ≤ histA.consumed_tail.index :=
  ⟨by decide,
    logHistory_tails_monotone [.committed 0, .consumed 0, .rollback ⟨0, 0⟩]
      histA histA (by decide)⟩

/-- C10: `record_appended` with an empty suffix whose head index equals
the current appended tail index returns `Ok`, leaves `records`,
`committed_tail` and `consumed_tail` unchanged, and overwrites
`appended_tail` with the suffix head — including its `prev_term`, even
when that differs from the previous `appended_tail.prev_term`. -/
theorem record_appended_empty_suffix (h : LogHistory) (s : LogSuffix)
    (hempty : s.entries = []) (hhead : s.head.index = h.appended_tail.index) :
    h.record_appended s = .ok ⟨s.head, h.committed_tail, h.consumed_tail, h.records⟩ := by
  unfold LogHistory.record_appended
  rw [if_pos (le_of_eq hhead)]
  dsimp only
  rw [hempty]
  simp [appendLoop, LogSuffix.tail, hempty]

/-- Witness for C10: on the fresh history (whose appended tail is
`(prev_term 0, index 0)`), appending the empty suffix headed at
`(prev_term 5, index 0)` succeeds and rewrites the appended tail's
`prev_term` from 0 to 5 with no entry appended. -/
theorem record_appended_empty_suffix_witness :
    (⟨[], ⟨5, 0⟩⟩ : LogSuffix).entries = [] ∧
    (⟨[], ⟨5, 0⟩⟩ : LogSuffix).head.index = histA.appended_tail.index ∧
    (⟨[], ⟨5, 0⟩⟩ : LogSuffix).head.prev_term ≠ histA.appended_tail.prev_term ∧
    histA.record_appended ⟨[], ⟨5, 0⟩⟩ =
      .ok ⟨⟨5, 0⟩, histA.committed_tail, histA.consumed_tail, histA.records⟩ :=
  ⟨rfl, rfl, by decide,
    record_appended_empty_suffix histA ⟨[], ⟨5, 0⟩⟩ rfl rfl⟩

theorem logPosition_ext (a b : LogPosition) (h1 : a.prev_term = b.prev_term)
    (h2 : a.index = b.index) : a = b := by
  cases a
  cases b
  simp_all

theorem merge_of_index_eq (self next : LogSuffix)
    (hidx : self.tail.index = next.head.index) :
    self.merge next =
      if next.head.prev_term = self.tail.prev_term
      then some ⟨self.entries ++ next.entries, self.head⟩ else none := by
  have htail := logSuffix_tail_index self
  have hle : self.head.index ≤ next.head.index := by
    have := logSuffix_head_le_tail self
    omega
  unfold LogSuffix.merge
  rw [if_neg (not_not_intro hidx)]
  dsimp only
  rw [if_pos hle]
  have hoff : next.head.index + 0 - self.head.index = self.entries.length := by omega
  rw [hoff]
  have hpos0 : next.positions[0]? = some next.head := by
    unfold LogSuffix.positions
    simp
  have hptq : (if self.entries.length = 0 then some self.head.prev_term
      else if self.entries.length - 1 < self.entries.length then
        some ((self.entries.getD (self.entries.length - 1) (LogEntry.noop 0)).term)
      else none) = some self.tail.prev_term := by
    cases hE : self.entries with
    | nil => simp [hE, LogSuffix.tail]
    | cons e0 es0 =>
      have hne : self.entries ≠ [] := by rw [hE]; simp
      have hlen : self.entries.length ≠ 0 := by rw [hE]; simp
      rw [← hE]
      rw [if_neg hlen, if_pos (by omega : self.entries.length - 1 < self.entries.length)]
      rw [logSuffix_tail_of_ne self hne]
      rw [List.getD_eq_getElem self.entries (LogEntry.noop 0)
        (by omega : self.entries.length - 1 < self.entries.length)]
      rw [List.getLast_eq_getElem self.entries hne]
  rw [hptq, hpos0]
  simp only [Option.map_some', ne_eq, Option.some.injEq, List.take_length, List.drop_zero]
  by_cases hp : next.head.prev_term = self.tail.prev_term
  · rw [if_neg (not_not_intro hp), if_pos hp]
  · rw [if_pos hp, if_neg hp]

/-- C8 (amended): `LogSuffix::merge` accepts exactly the case where `next`
begins at `self`'s tail position (equal index and agreeing `prev_term`),
and then appends all of `next`'s entries; any other pair — including
genuinely overlapping suffixes whose overlap agrees on terms — trips one
of its assertions (modelled as `none`). -/
theorem merge_exactly_adjacent (self next : LogSuffix) :
    (next.head = self.tail →
      self.merge next = some ⟨self.entries ++ next.entries, self.head⟩) ∧
    (next.head ≠ self.tail → self.merge next = none) := by
  constructor
  · intro heq
    rw [merge_of_index_eq self next (by rw [heq])]
    rw [if_pos (by rw [heq])]
  · intro hne
    by_cases hidx : self.tail.index = next.head.index
    · rw [merge_of_index_eq self next hidx]
      refine if_neg ?_
      intro hpt
      exact hne (logPosition_ext next.head self.tail hpt hidx.symm)
    · unfold LogSuffix.merge
      rw [if_pos hidx]

/-- Witness for C8 at the exactly-adjacent pair: merging
`[noop 1, noop 1]` at head `(0,0)` with `[noop 2]` at head `(1,2)` (its
tail) concatenates the entries. -/
theorem merge_exactly_adjacent_witness :
    (⟨[.noop 2], ⟨1, 2⟩⟩ : LogSuffix).head = mergeSelfCex.tail ∧
    mergeSelfCex.merge ⟨[.noop 2], ⟨1, 2⟩⟩ =
      some ⟨[.noop 1, .noop 1, .noop 2], ⟨0, 0⟩⟩ :=
  ⟨by decide, (merge_exactly_adjacent mergeSelfCex ⟨[.noop 2], ⟨1, 2⟩⟩).1 (by decide)⟩

/-- Counterexample to C8 as stated: `mergeNextCex` overlaps
`mergeSelfCex` (its head lies strictly inside the range), every position
of the overlap agrees, yet `merge` panics (modelled `none`) instead of
succeeding, because the code asserts exact adjacency. -/
theorem merge_rejects_overlap :
    mergeSelfCex.head.index ≤ mergeNextCex.head.index ∧
    mergeNextCex.head.index < mergeSelfCex.tail.index ∧
    (∀ p ∈ mergeNextCex.positions, p ∈ mergeSelfCex.positions) ∧
    mergeSelfCex.merge mergeNextCex = none := by decide

/-- C6: on entry to the follower Append sub-state the effective committed
log tail becomes `max(local committed index, min(message committed,
suffix tail index))`, the new log tail index is
`max(suffix tail index, local tail index)`, and the storage write is
skipped (`future = none`) exactly when that new log tail index equals the
local log tail index. -/
theorem follower_append_new_correct (localTail : LogPosition) (localCommitted : Nat)
    (m : AppendEntriesCall) :
    (FollowerAppend.new localTail localCommitted m).message.committed_log_tail =
      max localCommitted (min m.committed_log_tail m.suffix.tail.index) ∧
    (FollowerAppend.new localTail localCommitted m).new_log_tail.index =
      max m.suffix.tail.index localTail.index ∧
    ((FollowerAppend.new localTail localCommitted m).future = none ↔
      (FollowerAppend.new localTail localCommitted m).new_log_tail.index =
        localTail.index) := by
  unfold FollowerAppend.new
  refine ⟨?_, ?_, ?_⟩
  · dsimp only
    split_ifs <;> (try dsimp only at *) <;> omega
  · dsimp only
    split_ifs <;> omega
  · dsimp only
    split_ifs <;> simp_all

/-- C7 (amended): while the follower is in the Append sub-state, an
incoming `AppendEntriesCall` is answered with the busy signal and nothing
else happens; an incoming `InstallSnapshotCast` — contrary to the claim —
receives no reply at all; no message is processed (the handler emits at
most a busy reply and never changes state: the Rust function always
returns `Ok(None)`). -/
theorem follower_append_handle_message_correct :
    (∀ m, FollowerAppend.handle_message (.appendEntriesCall m) = some .busySignal) ∧
    (∀ pfx, FollowerAppend.handle_message (.installSnapshotCast pfx) = none) ∧
    (∀ msg, FollowerAppend.handle_message msg = none ∨
      FollowerAppend.handle_message msg = some .busySignal) := by
  refine ⟨fun m => rfl, fun pfx => rfl, fun msg => ?_⟩
  cases msg <;> simp [FollowerAppend.handle_message]

/-- Counterexample to C7 as stated: an `InstallSnapshotCast` arriving in
the Append sub-state receives no reply (in particular no busy reply) —
the handler only answers `AppendEntriesCall`s. -/
theorem install_snapshot_gets_no_reply_during_append :
    FollowerAppend.handle_message (.installSnapshotCast emptyLogPrefix) = none ∧
    FollowerAppend.handle_message (.appendEntriesCall ⟨⟨[], ⟨0, 0⟩⟩, 0⟩) =
      some .busySignal := by decide

/-- C9: when the leader handles a non-busy reply from an unsynced
follower, it looks up its own record at `reply.log_tail.index`: on a
`prev_term` match the follower becomes synced with
`log_tail = reply.log_tail.index` (and counts as updated), otherwise it
stays unsynced with `log_tail = reply.log_tail.index - 1` (saturating
subtraction, `u64::saturating_sub` being `Nat` subtraction). -/
theorem update_follower_state_unsynced (leaderLog : LogHistory) (f : FollowerInfo)
    (reply : AppendEntriesReply) (hbusy : reply.busy = false) (hsync : f.synced = false) :
    ((leaderLog.get_record reply.log_tail.index).map (fun r => r.head.prev_term) =
        some reply.log_tail.prev_term →
      (update_follower_state leaderLog f reply).1.synced = true ∧
      (update_follower_state leaderLog f reply).1.log_tail = reply.log_tail.index ∧
      (update_follower_state leaderLog f reply).2 = true) ∧
    ((leaderLog.get_record reply.log_tail.index).map (fun r => r.head.prev_term) ≠
        some reply.log_tail.prev_term →
      (update_follower_state leaderLog f reply).1.synced = false ∧
      (update_follower_state leaderLog f reply).1.log_tail = reply.log_tail.index - 1 ∧
      (update_follower_state leaderLog f reply).2 = false) := by
  unfold update_follower_state
  dsimp only
  constructor
  · intro hmatch
    rw [if_pos hmatch]
    split_ifs <;> simp_all
  · intro hmiss
    rw [if_neg hmiss]
    split_ifs <;> simp_all

/-- Witness for C9: the fresh leader history has `prev_term` 0 at index 0,
so an unsynced follower replying with tail `(prev_term 0, index 0)` becomes
synced at 0, while one replying `(prev_term 3, index 7)` stays unsynced and
is backed off to index 6. -/
theorem update_follower_state_unsynced_witness :
    ((⟨0, 0, 0, false⟩ : FollowerInfo).synced = false ∧
      (⟨1, ⟨0, 0⟩, false⟩ : AppendEntriesReply).busy = false) ∧
    ((update_follower_state histA ⟨0, 0, 0, false⟩ ⟨1, ⟨0, 0⟩, false⟩).1.synced = true ∧
      (update_follower_state histA ⟨0, 0, 0, false⟩ ⟨1, ⟨0, 0⟩, false⟩).1.log_tail = 0 ∧
      (update_follower_state histA ⟨0, 0, 0, false⟩ ⟨1, ⟨0, 0⟩, false⟩).2 = true) ∧
    ((update_follower_state histA ⟨0, 0, 0, false⟩ ⟨1, ⟨3, 7⟩, false⟩).1.synced = false ∧
      (update_follower_state histA ⟨0, 0, 0, false⟩ ⟨1, ⟨3, 7⟩, false⟩).1.log_tail = 6 ∧
      (update_follower_state histA ⟨0, 0, 0, false⟩ ⟨1, ⟨3, 7⟩, false⟩).2 = false) :=
  ⟨⟨rfl, rfl⟩,
    (update_follower_state_unsynced histA ⟨0, 0, 0, false⟩
      ⟨1, ⟨0, 0⟩, false⟩ rfl rfl).1 (by decide),
    (update_follower_state_unsynced histA ⟨0, 0, 0, false⟩
      ⟨1, ⟨3, 7⟩, false⟩ rfl rfl).2 (by decide)⟩

theorem record_rollback_sets_tail (h : LogHistory) (p : LogPosition) (h' : LogHistory)
    (hok : h.record_rollback p = .ok h') : h'.appended_tail = p := by
  unfold LogHistory.record_rollback at hok
  split at hok
  · simp at hok
  split at hok
  · simp at hok
  split at hok
  · simp at hok
  simp only [Except.ok.injEq] at hok
  subst hok
  rfl

theorem lcpLoop_divergence (h : LogHistory) (fallback : LogPosition) :
    ∀ (ps : List LogPosition) (k : Nat) (r r2 : HistoryRecord),
      k < ps.length →
      (∀ j, j < k →
        (h.get_record (ps.getD j ⟨0, 0⟩).index).map (fun rec => rec.head.prev_term) =
          some (ps.getD j ⟨0, 0⟩).prev_term ∧
        (ps.getD j ⟨0, 0⟩).index ≠ h.appended_tail.index) →
      h.get_record (ps.getD k ⟨0, 0⟩).index = some r →
      (ps.getD k ⟨0, 0⟩).prev_term ≠ r.head.prev_term →
      h.get_record ((ps.getD k ⟨0, 0⟩).index - 1) = some r2 →
      lcpLoop h fallback ps =
        .ok (false, ⟨r2.head.prev_term, (ps.getD k ⟨0, 0⟩).index - 1⟩) := by
  intro ps
  induction ps with
  | nil => intro k r r2 hk _ _ _ _; simp at hk
  | cons p rest ih =>
    intro k r r2 hk hbefore hdiv hne hr2
    cases k with
    | zero =>
      simp only [List.getD_cons_zero] at hdiv hne hr2 ⊢
      unfold lcpLoop
      rw [hdiv]
      dsimp only
      rw [if_pos hne, hr2]
    | succ j =>
      have hj0 := hbefore 0 (by omega)
      simp only [List.getD_cons_zero] at hj0
      obtain ⟨hmap, hnt⟩ := hj0
      simp only [List.getD_cons_succ] at hdiv hne hr2 ⊢
      cases hq : h.get_record p.index with
      | none => rw [hq] at hmap; simp at hmap
      | some q =>
        rw [hq] at hmap
        simp only [Option.map_some', Option.some.injEq] at hmap
        unfold lcpLoop
        rw [hq]
        dsimp only
        rw [if_neg (fun hc => hc hmap.symm), if_neg hnt]
        exact ih j r r2 (by simpa using hk)
          (fun i hi => by simpa using hbefore (i + 1) (by omega)) hdiv hne hr2

/-- C5: when the longest-common-prefix walk over the overlapping suffix's
positions first meets a position `(prev_term, index)` whose `prev_term`
disagrees with the local record's — every earlier position agreeing and
not reaching the local tail — the follower forms the join point
`{prev_term: record_at(index-1).head.prev_term, index: index-1}`, rolls
its uncommitted tail back to it (so the new appended tail is the join
point), replies with exactly that position, and stays Idle.  The
divergence index is required to be at least 1, where the Rust `u64`
subtraction and `Nat` subtraction agree. -/
theorem follower_divergence_rolls_back (h : LogHistory) (m : AppendEntriesCall)
    (k : Nat) (r r2 : HistoryRecord) (h' : LogHistory)
    (_hpos : 1 ≤ (m.suffix.positions.getD k ⟨0, 0⟩).index)
    (hk : k < m.suffix.positions.length)
    (hbefore : ∀ j, j < k →
      (h.get_record (m.suffix.positions.getD j ⟨0, 0⟩).index).map
          (fun rec => rec.head.prev_term) =
        some (m.suffix.positions.getD j ⟨0, 0⟩).prev_term ∧
      (m.suffix.positions.getD j ⟨0, 0⟩).index ≠ h.appended_tail.index)
    (hdiv : h.get_record (m.suffix.positions.getD k ⟨0, 0⟩).index = some r)
    (hne : (m.suffix.positions.getD k ⟨0, 0⟩).prev_term ≠ r.head.prev_term)
    (hr2 : h.get_record ((m.suffix.positions.getD k ⟨0, 0⟩).index - 1) = some r2)
    (hrb : h.record_rollback
      ⟨r2.head.prev_term, (m.suffix.positions.getD k ⟨0, 0⟩).index - 1⟩ = .ok h') :
    handle_non_disjoint_entries h m =
      .ok (h', some (.appendEntries
        ⟨r2.head.prev_term, (m.suffix.positions.getD k ⟨0, 0⟩).index - 1⟩), .stayIdle) ∧
    h'.appended_tail =
      ⟨r2.head.prev_term, (m.suffix.positions.getD k ⟨0, 0⟩).index - 1⟩ := by
  have hlcp := lcpLoop_divergence h m.suffix.tail m.suffix.positions k r r2
    hk hbefore hdiv hne hr2
  constructor
  · unfold handle_non_disjoint_entries longest_common_prefix
    rw [hlcp]
    dsimp only
    rw [hrb]
  · exact record_rollback_sets_tail h _ h' hrb

/-- Witness for C5: the S5 scenario.  The local log with entry terms
`[1, 1, 2]` at indices 1..=3 (as recorded by `record_appended` on the
fresh history) receives the suffix headed at `(prev_term 1, index 2)`
with two entries of term 3; the walk diverges at position `(3, 3)`
(position number 1), the follower rolls back to `(prev_term 1, index 2)`,
replies with that position and stays Idle. -/
theorem follower_divergence_rolls_back_witness :
    histA.record_appended ⟨[.noop 1, .noop 1, .noop 2], ⟨0, 0⟩⟩ = .ok s5Local ∧
    s5Msg.suffix.positions = [⟨1, 2⟩, ⟨3, 3⟩, ⟨3, 4⟩] ∧
    handle_non_disjoint_entries s5Local s5Msg =
      .ok (s5After, some (.appendEntries ⟨1, 2⟩), .stayIdle) ∧
    s5After.appended_tail = (⟨1, 2⟩ : LogPosition) :=
  ⟨by decide, by decide,
    follower_divergence_rolls_back s5Local s5Msg 1
      ⟨⟨2, 3⟩, cfgA⟩ ⟨⟨1, 1⟩, cfgA⟩ s5After
      (by decide) (by decide) (by decide) (by decide) (by decide) (by decide) (by decide)⟩

end Raftlog
